import Mathlib

/-!
Verification of the error-rendering core of `fmt.rs`.

Strings are embedded as lists of characters (`Str`).  A text sink
(`fmt::Write` in the code) is a state type `σ` with a fallible `write`
operation; `none` models `fmt::Error`.  `Indented` embeds the stateful
`Indented` wrapper (its `ind : Option usize` label and `started` flag),
`writeStr` embeds `Indented::write_str`, and `fmtErrorFirst` /
`fmtErrorLast` embed `RootCauseFirst::fmt_error` / `RootCauseLast::fmt_error`.
-/

set_option autoImplicit false

abbrev Str := List Char

/-- Embedding of Rust `str::split('\n')`: every newline separates two
(possibly empty) lines, the empty string yields one empty line. -/
def splitOnNl : Str → List Str
  | [] => [[]]
  | c :: cs =>
    match splitOnNl cs with
    | [] => [[]]
    | r :: rs => if c = '\n' then [] :: r :: rs else (c :: r) :: rs

/-- Embedding of `str::trim_start`. -/
def trimLeftS (s : Str) : Str := s.dropWhile Char.isWhitespace

/-- Embedding of `str::trim_end`. -/
def trimRightS (s : Str) : Str := ((s.reverse).dropWhile Char.isWhitespace).reverse

/-- Embedding of `str::trim`. -/
def trimS (s : Str) : Str := trimRightS (trimLeftS s)

/-- A text sink: the state type `σ` with a fallible write, modelling
`fmt::Write` where `none` is `fmt::Error`. -/
structure Sink (σ : Type) where
  write : σ → Str → Option σ

/-- The `String` sink of the unit tests: writes append and always succeed. -/
def strSink : Sink Str := ⟨fun out s => some (out ++ s)⟩

/-- State of the `Indented` wrapper: optional numeric label and the
`started` flag. -/
structure Indented where
  ind : Option Nat
  started : Bool
deriving DecidableEq

/-- Embedding of `Indented::numbered`. -/
def Indented.numbered (n : Nat) : Indented := ⟨some n, false⟩

/-- The label emitted before the first non-blank line:
`format_args!("{: >5}: ", ind)` for a numeric label, four spaces otherwise. -/
def labelPfx : Option Nat → Str
  | some n => List.replicate (5 - (Nat.repr n).length) ' ' ++ (Nat.repr n).data ++ [':', ' ']
  | none => List.replicate 4 ' '

/-- The continuation indent: seven spaces for a numeric label, four otherwise. -/
def contPfx : Option Nat → Str
  | some _ => List.replicate 7 ' '
  | none => List.replicate 4 ' '

/-- Embedding of `Iterator::enumerate` starting from a given index. -/
def enumLines {α : Type} : Nat → List α → List (Nat × α)
  | _, [] => []
  | n, l :: ls => (n, l) :: enumLines (n + 1) ls

/-- The loop body of `Indented::write_str`, iterating over the enumerated
lines of the written fragment and threading the sink state. -/
def writeStrAux {σ : Type} (w : Sink σ) : Indented → σ → List (Nat × Str) → Option (Indented × σ)
  | st, out, [] => some (st, out)
  | st, out, (i, line) :: rest =>
    if st.started = false then
      if trimS line = [] then writeStrAux w st out rest
      else do
        let out ← w.write out (labelPfx st.ind)
        let out ← w.write out (trimS line)
        writeStrAux w ⟨st.ind, true⟩ out rest
    else if 0 < i then do
      let out ← w.write out (['\n'])
      let out ← w.write out (contPfx st.ind)
      let out ← w.write out line
      writeStrAux w st out rest
    else do
      let out ← w.write out line
      writeStrAux w st out rest

/-- Embedding of `Indented::write_str`. -/
def writeStr {σ : Type} (w : Sink σ) (st : Indented) (out : σ) (s : Str) : Option (Indented × σ) :=
  writeStrAux w st out (enumLines 0 (splitOnNl s))

/-- Embedding of `std::backtrace::BacktraceStatus`. -/
inductive BacktraceStatus
  | captured
  | disabled
  | unsupported
deriving DecidableEq

/-- The backtrace text transformation: replace a leading
`stack backtrace:` by capitalizing its first seven characters to
`Stack B`, then trim trailing whitespace. -/
def relabelBacktrace (s : Str) : Str :=
  trimRightS (if List.isPrefixOf ("stack backtrace:".data) s then ("Stack B".data ++ List.drop 7 s) else s)

/-- The span-context block: `"\n\nContext:\n"` then the context text. -/
def emitContext {σ : Type} (w : Sink σ) (span : Option Str) (out : σ) : Option σ :=
  match span with
  | none => some out
  | some ctx => do
    let out ← w.write out ("\n\nContext:\n".data)
    w.write out ctx

/-- The backtrace block: emitted only when the status is `captured`. -/
def emitBacktrace {σ : Type} (w : Sink σ) (bt : Option (BacktraceStatus × Str)) (out : σ) : Option σ :=
  match bt with
  | some (BacktraceStatus.captured, text) => do
    let out ← w.write out (['\n', '\n'])
    w.write out (relabelBacktrace text)
  | _ => some out

/-- The entry loop of `RootCauseFirst::fmt_error`: a newline, then the
trimmed entry text through a fresh numbered `Indented`. -/
def entriesLoopFirst {σ : Type} (w : Sink σ) : List (Nat × Str) → σ → Option σ
  | [], out => some out
  | (n, e) :: rest, out => do
    let out ← w.write out (['\n'])
    match writeStr w (Indented.numbered n) out (trimS e) with
    | none => none
    | some (_, out) => entriesLoopFirst w rest out

/-- Embedding of `RootCauseFirst::fmt_error`: the chain is given outermost
first (the order `Chain::new` yields) and is reversed before enumeration. -/
def fmtErrorFirst {σ : Type} (w : Sink σ) (chain : List Str) (span : Option Str)
    (bt : Option (BacktraceStatus × Str)) (out : σ) : Option σ := do
  let out ← entriesLoopFirst w (enumLines 0 chain.reverse) out
  let out ← emitContext w span out
  emitBacktrace w bt out

/-- The entry loop of `RootCauseLast::fmt_error`: the untrimmed entry text
through a fresh numbered `Indented`, then a newline. -/
def entriesLoopLast {σ : Type} (w : Sink σ) : List (Nat × Str) → σ → Option σ
  | [], out => some out
  | (n, e) :: rest, out =>
    match writeStr w (Indented.numbered n) out e with
    | none => none
    | some (_, out) => do
      let out ← w.write out (['\n'])
      entriesLoopLast w rest out

/-- Embedding of `RootCauseLast::fmt_error`: a leading newline, then the
chain enumerated in natural order. -/
def fmtErrorLast {σ : Type} (w : Sink σ) (chain : List Str) (span : Option Str)
    (bt : Option (BacktraceStatus × Str)) (out : σ) : Option σ := do
  let out ← w.write out (['\n'])
  let out ← entriesLoopLast w (enumLines 0 chain) out
  let out ← emitContext w span out
  emitBacktrace w bt out

example : writeStr strSink ⟨some 2, false⟩ [] ("verify\nthis".data)
    = some (⟨some 2, true⟩, "    2: verify\n       this".data) := by decide

example : writeStr strSink ⟨some 12, false⟩ [] ("verify\nthis".data)
    = some (⟨some 12, true⟩, "   12: verify\n       this".data) := by decide

example : writeStr strSink ⟨none, false⟩ [] ("verify\nthis".data)
    = some (⟨none, true⟩, "    verify\n    this".data) := by decide

example : fmtErrorFirst strSink ["outer".data, "middle".data, "root".data] none none []
    = some ("\n    0: root\n    1: middle\n    2: outer".data) := by decide

example : fmtErrorLast strSink ["outer".data, "middle".data, "root".data] none none []
    = some ("\n    0: outer\n    1: middle\n    2: root\n".data) := by decide

/-- Pure output of the continuation lines written once `started` is set. -/
def emitFrom (ind : Option Nat) : List Str → Str
  | [] => []
  | l :: ls => '\n' :: (contPfx ind ++ l ++ emitFrom ind ls)

/-- Pure output of a fresh `Indented` on a list of lines. -/
def emitFresh (ind : Option Nat) : List Str → Str
  | [] => []
  | l :: ls => if trimS l = [] then emitFresh ind ls else labelPfx ind ++ (trimS l ++ emitFrom ind ls)

/-- Whether some line has non-whitespace content (the final `started` flag). -/
def anyNonBlank (ls : List Str) : Bool := ls.any fun l => decide (trimS l ≠ [])

/-- Pure output of the span-context block. -/
def ctxOut : Option Str → Str
  | none => []
  | some c => "\n\nContext:\n".data ++ c

/-- Pure output of the backtrace block. -/
def btOut : Option (BacktraceStatus × Str) → Str
  | some (BacktraceStatus.captured, text) => '\n' :: '\n' :: relabelBacktrace text
  | _ => []

theorem strSink_write (out s : Str) : strSink.write out s = some (out ++ s) := rfl

theorem writeStrAux_started (ind : Option Nat) (ls : List Str) :
    ∀ (m : Nat) (out : Str),
    writeStrAux strSink ⟨ind, true⟩ out (enumLines (m + 1) ls)
      = some (⟨ind, true⟩, out ++ emitFrom ind ls) := by
  induction ls with
  | nil => intro m out; simp [enumLines, writeStrAux, emitFrom]
  | cons l ls ih =>
    intro m out
    simp [enumLines, writeStrAux, strSink_write, Option.bind, Nat.succ_pos, ih, emitFrom,
      List.append_assoc]

theorem writeStrAux_fresh (ind : Option Nat) (ls : List Str) :
    ∀ (n : Nat) (out : Str),
    writeStrAux strSink ⟨ind, false⟩ out (enumLines n ls)
      = some (⟨ind, anyNonBlank ls⟩, out ++ emitFresh ind ls) := by
  induction ls with
  | nil => intro n out; simp [enumLines, writeStrAux, emitFresh, anyNonBlank]
  | cons l ls ih =>
    intro n out
    by_cases h : trimS l = []
    · simpa [enumLines, writeStrAux, h, emitFresh, anyNonBlank] using ih (n + 1) out
    · simp [enumLines, writeStrAux, h, strSink_write, Option.bind, writeStrAux_started,
        emitFresh, anyNonBlank, List.append_assoc]

theorem writeStr_strSink (ind : Option Nat) (out s : Str) :
    writeStr strSink ⟨ind, false⟩ out s
      = some (⟨ind, anyNonBlank (splitOnNl s)⟩, out ++ emitFresh ind (splitOnNl s)) :=
  writeStrAux_fresh ind (splitOnNl s) 0 out

theorem entriesLoopFirst_strSink (pairs : List (Nat × Str)) :
    ∀ out : Str, entriesLoopFirst strSink pairs out
      = some (out ++ List.flatten (pairs.map fun p => '\n' :: emitFresh (some p.1) (splitOnNl (trimS p.2)))) := by
  induction pairs with
  | nil => intro out; simp [entriesLoopFirst]
  | cons p ps ih =>
    intro out
    obtain ⟨n, e⟩ := p
    simp [entriesLoopFirst, strSink_write, Option.bind, Indented.numbered, writeStr_strSink, ih,
      List.append_assoc]

theorem entriesLoopLast_strSink (pairs : List (Nat × Str)) :
    ∀ out : Str, entriesLoopLast strSink pairs out
      = some (out ++ List.flatten (pairs.map fun p => emitFresh (some p.1) (splitOnNl p.2) ++ ['\n'])) := by
  induction pairs with
  | nil => intro out; simp [entriesLoopLast]
  | cons p ps ih =>
    intro out
    obtain ⟨n, e⟩ := p
    simp [entriesLoopLast, strSink_write, Option.bind, Indented.numbered, writeStr_strSink, ih,
      List.append_assoc]

theorem emitContext_strSink (span : Option Str) (out : Str) :
    emitContext strSink span out = some (out ++ ctxOut span) := by
  cases span <;> simp [emitContext, ctxOut, strSink_write, Option.bind, List.append_assoc]

theorem emitBacktrace_strSink (bt : Option (BacktraceStatus × Str)) (out : Str) :
    emitBacktrace strSink bt out = some (out ++ btOut bt) := by
  match bt with
  | none => simp [emitBacktrace, btOut]
  | some (st, text) =>
    cases st <;> simp [emitBacktrace, btOut, strSink_write, Option.bind, List.append_assoc]

theorem fmtErrorFirst_strSink (chain : List Str) (span : Option Str)
    (bt : Option (BacktraceStatus × Str)) (out : Str) :
    fmtErrorFirst strSink chain span bt out
      = some (out ++ (List.flatten ((enumLines 0 chain.reverse).map
          fun p => '\n' :: emitFresh (some p.1) (splitOnNl (trimS p.2)))
          ++ (ctxOut span ++ btOut bt))) := by
  simp [fmtErrorFirst, entriesLoopFirst_strSink, emitContext_strSink, emitBacktrace_strSink,
    Option.bind, List.append_assoc]

theorem fmtErrorLast_strSink (chain : List Str) (span : Option Str)
    (bt : Option (BacktraceStatus × Str)) (out : Str) :
    fmtErrorLast strSink chain span bt out
      = some (out ++ ('\n' :: (List.flatten ((enumLines 0 chain).map
          fun p => emitFresh (some p.1) (splitOnNl p.2) ++ ['\n'])
          ++ (ctxOut span ++ btOut bt)))) := by
  simp [fmtErrorLast, entriesLoopLast_strSink, emitContext_strSink, emitBacktrace_strSink,
    strSink_write, Option.bind, List.append_assoc]

theorem splitOnNl_ne_nil (s : Str) : splitOnNl s ≠ [] := by
  cases s with
  | nil => simp [splitOnNl]
  | cons c cs =>
    cases hcs : splitOnNl cs with
    | nil => simp [splitOnNl, hcs]
    | cons r rs =>
      simp only [splitOnNl, hcs]
      split <;> simp

theorem splitOnNl_exists_cons (cs : Str) : ∃ r rs, splitOnNl cs = r :: rs := by
  cases h : splitOnNl cs with
  | nil => exact absurd h (splitOnNl_ne_nil cs)
  | cons r rs => exact ⟨r, rs, rfl⟩

theorem splitOnNl_no_nl (s : Str) (h : '\n' ∉ s) : splitOnNl s = [s] := by
  induction s with
  | nil => rfl
  | cons c cs ih =>
    have hc : c ≠ '\n' := fun hc => h (hc ▸ List.mem_cons_self c cs)
    have hcs : '\n' ∉ cs := fun hm => h (List.mem_cons_of_mem c hm)
    simp [splitOnNl, ih hcs, hc]

theorem splitOnNl_cons_of_cons (c : Char) (cs : Str) (r : Str) (rs : List Str)
    (hcs : splitOnNl cs = r :: rs) :
    splitOnNl (c :: cs) = if c = '\n' then [] :: r :: rs else (c :: r) :: rs := by
  simp only [splitOnNl, hcs]

theorem splitOnNl_append_nl (t : Str) : splitOnNl (t ++ ['\n']) = splitOnNl t ++ [[]] := by
  induction t with
  | nil => rfl
  | cons c cs ih =>
    obtain ⟨r, rs, hcs⟩ := splitOnNl_exists_cons cs
    have ih2 : splitOnNl (cs ++ ['\n']) = r :: (rs ++ [[]]) := by rw [ih, hcs]; rfl
    rw [List.cons_append, splitOnNl_cons_of_cons c (cs ++ ['\n']) r (rs ++ [[]]) ih2,
      splitOnNl_cons_of_cons c cs r rs hcs]
    split <;> simp

theorem mem_dropWhile_of_mem {α : Type} {p : α → Bool} {c : α} :
    ∀ {l : List α}, c ∈ l → p c = false → c ∈ l.dropWhile p := by
  intro l
  induction l with
  | nil => intro h _; exact absurd h (List.not_mem_nil c)
  | cons a l ih =>
    intro hm hc
    by_cases ha : p a
    · rw [List.dropWhile_cons_of_pos ha]
      rcases List.mem_cons.mp hm with h | h
      · subst h; rw [hc] at ha; exact absurd ha (by simp)
      · exact ih h hc
    · rw [List.dropWhile_cons_of_neg ha]; exact hm

theorem trimLeftS_mem {c : Char} {s : Str} (hm : c ∈ s) (hc : c.isWhitespace = false) :
    c ∈ trimLeftS s :=
  mem_dropWhile_of_mem hm hc

theorem trimS_ne_nil_of_mem {c : Char} {s : Str} (hm : c ∈ s) (hc : c.isWhitespace = false) :
    trimS s ≠ [] := by
  intro h
  have h1 : c ∈ trimLeftS s := trimLeftS_mem hm hc
  have h2 : c ∈ (trimLeftS s).reverse := List.mem_reverse.mpr h1
  have h3 : c ∈ ((trimLeftS s).reverse).dropWhile Char.isWhitespace :=
    mem_dropWhile_of_mem h2 hc
  have h4 : c ∈ trimS s := List.mem_reverse.mpr h3
  rw [h] at h4
  exact absurd h4 (List.not_mem_nil c)

theorem all_ws_of_trimS_nil {s : Str} (h : trimS s = []) :
    ∀ c ∈ s, c.isWhitespace = true := by
  intro c hm
  by_contra hc
  exact trimS_ne_nil_of_mem hm (Bool.eq_false_iff.mpr hc) h

theorem trimS_nil_of_all_ws {s : Str} (h : ∀ c ∈ s, c.isWhitespace = true) :
    trimS s = [] := by
  have h1 : trimLeftS s = [] := List.dropWhile_eq_nil_iff.mpr h
  rw [trimS, h1]
  rfl

theorem trimS_cons_ws {c : Char} (s : Str) (hc : c.isWhitespace = true) :
    trimS (c :: s) = trimS s := by
  simp [trimS, trimLeftS, List.dropWhile_cons_of_pos hc]

theorem trimLeftS_cons_not_ws {c : Char} (s : Str) (hc : ¬ c.isWhitespace) :
    trimLeftS (c :: s) = c :: s := by
  simp [trimLeftS, List.dropWhile_cons_of_neg hc]

theorem dropWhile_dropWhile {α : Type} (p : α → Bool) (l : List α) :
    (l.dropWhile p).dropWhile p = l.dropWhile p := by
  induction l with
  | nil => rfl
  | cons a l ih =>
    by_cases ha : p a
    · rw [List.dropWhile_cons_of_pos ha]; exact ih
    · rw [List.dropWhile_cons_of_neg ha, List.dropWhile_cons_of_neg ha]

theorem trimS_trimLeftS (s : Str) : trimS (trimLeftS s) = trimS s := by
  simp [trimS, trimLeftS, dropWhile_dropWhile]

theorem mem_of_mem_splitOnNl {c : Char} :
    ∀ {s : Str} {l : Str}, l ∈ splitOnNl s → c ∈ l → c ∈ s := by
  intro s
  induction s with
  | nil =>
    intro l hl hc
    simp only [splitOnNl, List.mem_singleton] at hl
    subst hl
    exact absurd hc (List.not_mem_nil c)
  | cons a cs ih =>
    intro l hl hc
    obtain ⟨r, rs, hcs⟩ := splitOnNl_exists_cons cs
    simp only [splitOnNl, hcs] at hl
    by_cases ha : a = '\n'
    · rw [if_pos ha] at hl
      rcases List.mem_cons.mp hl with h | h
      · subst h; exact absurd hc (List.not_mem_nil c)
      · have hm2 : l ∈ splitOnNl cs := by rw [hcs]; exact h
        exact List.mem_cons_of_mem a (ih hm2 hc)
    · rw [if_neg ha] at hl
      rcases List.mem_cons.mp hl with h | h
      · subst h
        rcases List.mem_cons.mp hc with h | h
        · subst h; exact List.mem_cons_self c cs
        · have hm2 : r ∈ splitOnNl cs := by rw [hcs]; exact List.mem_cons_self r rs
          exact List.mem_cons_of_mem a (ih hm2 h)
      · have hm2 : l ∈ splitOnNl cs := by rw [hcs]; exact List.mem_cons_of_mem r h
        exact List.mem_cons_of_mem a (ih hm2 hc)

theorem mem_splitOnNl_of_mem {c : Char} :
    ∀ {s : Str}, c ∈ s → c ≠ '\n' → ∃ l ∈ splitOnNl s, c ∈ l := by
  intro s
  induction s with
  | nil => intro hm _; exact absurd hm (List.not_mem_nil c)
  | cons a cs ih =>
    intro hm hc
    obtain ⟨r, rs, hcs⟩ := splitOnNl_exists_cons cs
    simp only [splitOnNl, hcs]
    rcases List.mem_cons.mp hm with h | h
    · subst h
      rw [if_neg hc]
      exact ⟨c :: r, List.mem_cons_self _ _, List.mem_cons_self c r⟩
    · obtain ⟨l, hl, hcl⟩ := ih h hc
      rw [hcs] at hl
      by_cases ha : a = '\n'
      · rw [if_pos ha]
        exact ⟨l, List.mem_cons_of_mem [] hl, hcl⟩
      · rw [if_neg ha]
        rcases List.mem_cons.mp hl with h2 | h2
        · subst h2
          exact ⟨a :: l, List.mem_cons_self _ _, List.mem_cons_of_mem a hcl⟩
        · exact ⟨l, List.mem_cons_of_mem _ h2, hcl⟩

theorem line_blank_of_trimS_nil {s l : Str} (h : trimS s = []) (hl : l ∈ splitOnNl s) :
    trimS l = [] :=
  trimS_nil_of_all_ws fun c hc => all_ws_of_trimS_nil h c (mem_of_mem_splitOnNl hl hc)

theorem trimS_nil_of_lines_blank {s : Str} (h : ∀ l ∈ splitOnNl s, trimS l = []) :
    trimS s = [] := by
  apply trimS_nil_of_all_ws
  intro c hc
  by_cases hnl : c = '\n'
  · subst hnl; rfl
  · obtain ⟨l, hl, hcl⟩ := mem_splitOnNl_of_mem hc hnl
    exact all_ws_of_trimS_nil (h l hl) c hcl

theorem anyNonBlank_splitOnNl {s : Str} :
    anyNonBlank (splitOnNl s) = true ↔ trimS s ≠ [] := by
  constructor
  · intro h hs
    simp only [anyNonBlank, List.any_eq_true, decide_eq_true_eq] at h
    obtain ⟨l, hl, hnb⟩ := h
    exact hnb (line_blank_of_trimS_nil hs hl)
  · intro hs
    by_contra h
    apply hs
    apply trimS_nil_of_lines_blank
    intro l hl
    simp only [Bool.not_eq_true, anyNonBlank, List.any_eq_false, decide_eq_true_eq] at h
    by_contra hb
    exact (h l hl) hb

/-- Leading all-whitespace lines, dropped. -/
def dropBlanks (ls : List Str) : List Str := ls.dropWhile fun l => decide (trimS l = [])

/-- Left-trim the head line (the effect of left-trimming the string). -/
def normHead : List Str → List Str
  | [] => [[]]
  | l :: ls => trimLeftS l :: ls

theorem dropWhile_head_false {α : Type} {p : α → Bool} :
    ∀ {l : List α} {y : α} {ys : List α}, l.dropWhile p = y :: ys → p y = false := by
  intro l
  induction l with
  | nil => intro y ys h; simp [List.dropWhile] at h
  | cons a l ih =>
    intro y ys h
    by_cases ha : p a
    · rw [List.dropWhile_cons_of_pos ha] at h; exact ih h
    · rw [List.dropWhile_cons_of_neg ha] at h
      injection h with h1 h2
      subst h1
      simpa using ha

theorem splitOnNl_trimLeftS (s : Str) :
    splitOnNl (trimLeftS s) = normHead (dropBlanks (splitOnNl s)) := by
  induction s with
  | nil => rfl
  | cons c cs ih =>
    obtain ⟨r, rs, hcs⟩ := splitOnNl_exists_cons cs
    by_cases hw : c.isWhitespace
    · have h1 : trimLeftS (c :: cs) = trimLeftS cs := by
        simp [trimLeftS, List.dropWhile_cons_of_pos hw]
      rw [h1, ih, splitOnNl_cons_of_cons c cs r rs hcs]
      by_cases hnl : c = '\n'
      · rw [if_pos hnl, hcs]
        congr 1
      · rw [if_neg hnl, hcs]
        by_cases hb : trimS r = []
        · have hb2 : trimS (c :: r) = [] := by rw [trimS_cons_ws r hw]; exact hb
          congr 1
          simp [dropBlanks, hb, hb2]
        · have hb2 : trimS (c :: r) ≠ [] := by rw [trimS_cons_ws r hw]; exact hb
          have d1 : dropBlanks (r :: rs) = r :: rs := by simp [dropBlanks, hb]
          have d2 : dropBlanks ((c :: r) :: rs) = (c :: r) :: rs := by simp [dropBlanks, hb2]
          rw [d1, d2]
          simp [normHead, trimLeftS, List.dropWhile_cons_of_pos hw]
    · have hnl : c ≠ '\n' := fun h => hw (by rw [h]; rfl)
      have h1 : trimLeftS (c :: cs) = c :: cs := trimLeftS_cons_not_ws cs hw
      rw [h1, splitOnNl_cons_of_cons c cs r rs hcs, if_neg hnl]
      have hb2 : trimS (c :: r) ≠ [] :=
        trimS_ne_nil_of_mem (List.mem_cons_self c r) (by simpa using hw)
      have d2 : dropBlanks ((c :: r) :: rs) = (c :: r) :: rs := by simp [dropBlanks, hb2]
      rw [d2]
      simp [normHead, trimLeftS_cons_not_ws r hw]

theorem emitFresh_dropBlanks (ind : Option Nat) (ls : List Str) :
    emitFresh ind (dropBlanks ls) = emitFresh ind ls := by
  induction ls with
  | nil => rfl
  | cons l ls ih =>
    by_cases hb : trimS l = []
    · have ih2 := ih
      simp only [dropBlanks] at ih2 ⊢
      simp [hb, emitFresh, ih2]
    · simp [dropBlanks, hb]

theorem anyNonBlank_dropBlanks (ls : List Str) :
    anyNonBlank (dropBlanks ls) = anyNonBlank ls := by
  induction ls with
  | nil => rfl
  | cons l ls ih =>
    by_cases hb : trimS l = []
    · have hdb : dropBlanks (l :: ls) = dropBlanks ls := by
        simp [dropBlanks, hb]
      rw [hdb, ih]
      simp [anyNonBlank, hb]
    · have hdb : dropBlanks (l :: ls) = l :: ls := by
        simp [dropBlanks, hb]
      rw [hdb]

theorem dropBlanks_head_nonblank {ls : List Str} {l : Str} {ls2 : List Str}
    (hd : dropBlanks ls = l :: ls2) : trimS l ≠ [] := by
  have h := dropWhile_head_false
    (show List.dropWhile (fun t => decide (trimS t = [])) ls = l :: ls2 from hd)
  simpa using h

theorem emitFresh_normHead_dropBlanks (ind : Option Nat) (ls : List Str) :
    emitFresh ind (normHead (dropBlanks ls)) = emitFresh ind (dropBlanks ls) := by
  cases hd : dropBlanks ls with
  | nil => simp [normHead, emitFresh, show trimS ([] : Str) = [] from rfl]
  | cons l ls2 =>
    have hb2 : trimS l ≠ [] := dropBlanks_head_nonblank hd
    simp [normHead, emitFresh, trimS_trimLeftS, hb2]

theorem anyNonBlank_normHead_dropBlanks (ls : List Str) :
    anyNonBlank (normHead (dropBlanks ls)) = anyNonBlank (dropBlanks ls) := by
  cases hd : dropBlanks ls with
  | nil => simp [normHead, anyNonBlank, show trimS ([] : Str) = [] from rfl]
  | cons l ls2 =>
    have hb2 : trimS l ≠ [] := dropBlanks_head_nonblank hd
    simp [normHead, anyNonBlank, trimS_trimLeftS, hb2]

theorem emitFresh_trimLeftS (ind : Option Nat) (s : Str) :
    emitFresh ind (splitOnNl (trimLeftS s)) = emitFresh ind (splitOnNl s) := by
  rw [splitOnNl_trimLeftS, emitFresh_normHead_dropBlanks, emitFresh_dropBlanks]

theorem anyNonBlank_trimLeftS (s : Str) :
    anyNonBlank (splitOnNl (trimLeftS s)) = anyNonBlank (splitOnNl s) := by
  rw [splitOnNl_trimLeftS, anyNonBlank_normHead_dropBlanks, anyNonBlank_dropBlanks]

theorem enumLines_snd_mem {α : Type} (ls : List α) :
    ∀ (n : Nat) (p : Nat × α), p ∈ enumLines n ls → p.2 ∈ ls := by
  induction ls with
  | nil => intro n p h; simp [enumLines] at h
  | cons l ls ih =>
    intro n p h
    simp only [enumLines, List.mem_cons] at h
    rcases h with h | h
    · subst h; exact List.mem_cons_self l ls
    · exact List.mem_cons_of_mem l (ih (n + 1) p h)

theorem writeStrAux_blank {σ : Type} (w : Sink σ) (ind : Option Nat) :
    ∀ (pairs : List (Nat × Str)), (∀ p ∈ pairs, trimS p.2 = []) →
    ∀ out, writeStrAux w ⟨ind, false⟩ out pairs = some (⟨ind, false⟩, out) := by
  intro pairs
  induction pairs with
  | nil => intro _ out; simp [writeStrAux]
  | cons p ps ih =>
    intro h out
    obtain ⟨i, line⟩ := p
    have hb : trimS line = [] := h (i, line) (List.mem_cons_self _ _)
    simp only [writeStrAux, hb]
    simp only [if_pos rfl, if_true]
    exact ih (fun q hq => h q (List.mem_cons_of_mem _ hq)) out

theorem writeStr_blank {σ : Type} (w : Sink σ) (ind : Option Nat) (out : σ) (s : Str)
    (h : trimS s = []) :
    writeStr w ⟨ind, false⟩ out s = some (⟨ind, false⟩, out) := by
  apply writeStrAux_blank
  intro p hp
  exact line_blank_of_trimS_nil h (enumLines_snd_mem _ _ _ hp)

theorem emitFrom_append (ind : Option Nat) (ls : List Str) (l : Str) :
    emitFrom ind (ls ++ [l]) = emitFrom ind ls ++ ('\n' :: (contPfx ind ++ l)) := by
  induction ls with
  | nil => simp [emitFrom]
  | cons x xs ih => simp [emitFrom, ih, List.append_assoc]

theorem emitFresh_append_nonblank (ind : Option Nat) (ls : List Str) (l : Str)
    (h : anyNonBlank ls = true) :
    emitFresh ind (ls ++ [l]) = emitFresh ind ls ++ ('\n' :: (contPfx ind ++ l)) := by
  induction ls with
  | nil => simp [anyNonBlank] at h
  | cons x xs ih =>
    by_cases hb : trimS x = []
    · have h2 : anyNonBlank xs = true := by simpa [anyNonBlank, hb] using h
      simp [emitFresh, hb, ih h2]
    · simp [emitFresh, hb, emitFrom_append, List.append_assoc]

theorem emitFrom_eq_flatten (ind : Option Nat) (ls : List Str) :
    emitFrom ind ls = List.flatten (ls.map fun l => '\n' :: (contPfx ind ++ l)) := by
  induction ls with
  | nil => rfl
  | cons x xs ih => simp [emitFrom, ih]

/-- C1: a single write of a fragment whose first line is non-empty after
trimming emits the label (right-justified number in width 5 plus `: `, or 4
spaces), then the trimmed first line, then for each later line a newline,
the continuation indent (7 spaces numbered, 4 unnumbered) and the line
verbatim; in particular "A\nB" renders as in the unit tests for labels 2,
12 and absent. -/
theorem c1_single_fragment_layout :
    (∀ (ind : Option Nat) (s l0 : Str) (rest : List Str),
      splitOnNl s = l0 :: rest → trimS l0 ≠ [] →
      writeStr strSink ⟨ind, false⟩ [] s
        = some (⟨ind, true⟩, labelPfx ind ++ (trimS l0
            ++ List.flatten (rest.map fun l => '\n' :: (contPfx ind ++ l)))))
    ∧ writeStr strSink ⟨some 2, false⟩ [] ("A\nB".data)
        = some (⟨some 2, true⟩, "    2: A\n       B".data)
    ∧ writeStr strSink ⟨some 12, false⟩ [] ("A\nB".data)
        = some (⟨some 12, true⟩, "   12: A\n       B".data)
    ∧ writeStr strSink ⟨none, false⟩ [] ("A\nB".data)
        = some (⟨none, true⟩, "    A\n    B".data) := by
  refine ⟨?_, by decide, by decide, by decide⟩
  intro ind s l0 rest hs h0
  rw [writeStr_strSink, hs]
  have hemit : emitFresh ind (l0 :: rest) = labelPfx ind ++ (trimS l0 ++ emitFrom ind rest) := by
    simp [emitFresh, h0]
  have hab : anyNonBlank (l0 :: rest) = true := by simp [anyNonBlank, h0]
  rw [hemit, hab, emitFrom_eq_flatten]
  simp

theorem c1_single_fragment_layout_witness :
    splitOnNl ("ab\ncd".data) = ["ab".data, "cd".data] ∧ trimS ("ab".data) ≠ [] ∧
    writeStr strSink ⟨some 3, false⟩ [] ("ab\ncd".data)
      = some (⟨some 3, true⟩, labelPfx (some 3) ++ (trimS ("ab".data)
          ++ List.flatten (["cd".data].map fun l => '\n' :: (contPfx (some 3) ++ l)))) :=
  ⟨by decide, by decide,
   c1_single_fragment_layout.1 (some 3) ("ab\ncd".data) ("ab".data) ["cd".data]
     (by decide) (by decide)⟩

/-- C4: for every message and label mode, a fresh LineIndenter renders the
message identically to the message with its leading whitespace removed, and
a whitespace-only fragment writes nothing to any sink and leaves
`started = false`. -/
theorem c4_leading_whitespace_invisible (ind : Option Nat) (s : Str) :
    writeStr strSink ⟨ind, false⟩ [] s = writeStr strSink ⟨ind, false⟩ [] (trimLeftS s)
    ∧ (trimS s = [] → ∀ (σ : Type) (w : Sink σ) (out : σ),
        writeStr w ⟨ind, false⟩ out s = some (⟨ind, false⟩, out)) := by
  constructor
  · rw [writeStr_strSink, writeStr_strSink, emitFresh_trimLeftS, anyNonBlank_trimLeftS]
  · intro h σ w out
    exact writeStr_blank w ind out s h

theorem c4_leading_whitespace_invisible_witness :
    (writeStr strSink ⟨some 1, false⟩ [] ("  \n hi".data)
        = writeStr strSink ⟨some 1, false⟩ [] (trimLeftS ("  \n hi".data)))
    ∧ (trimS (" \n ".data) = []
        ∧ writeStr strSink ⟨some 1, false⟩ ("x".data) (" \n ".data)
            = some (⟨some 1, false⟩, "x".data)) :=
  ⟨(c4_leading_whitespace_invisible (some 1) ("  \n hi".data)).1,
   by decide,
   (c4_leading_whitespace_invisible (some 1) (" \n ".data)).2 (by decide) Str strSink ("x".data)⟩

/-- C5: once `started` is set, a fragment with no newline character is a
single verbatim write to the underlying sink, with no newline and no
continuation indent. -/
theorem c5_no_newline_appends {σ : Type} (w : Sink σ) (ind : Option Nat) (out : σ) (s : Str)
    (h : '\n' ∉ s) :
    writeStr w ⟨ind, true⟩ out s
      = Option.map (fun o => ((⟨ind, true⟩ : Indented), o)) (w.write out s) := by
  rw [writeStr, splitOnNl_no_nl s h]
  cases hw : w.write out s with
  | none => simp [enumLines, writeStrAux, hw, Option.bind]
  | some o => simp [enumLines, writeStrAux, hw, Option.bind]

theorem c5_no_newline_appends_witness :
    ('\n' ∉ "yz".data)
    ∧ writeStr strSink ⟨some 0, true⟩ ("x".data) ("yz".data)
        = Option.map (fun o => ((⟨some 0, true⟩ : Indented), o))
            (strSink.write ("x".data) ("yz".data)) :=
  ⟨by decide, c5_no_newline_appends strSink (some 0) ("x".data) ("yz".data) (by decide)⟩

/-- C9: a message ending in a newline, written through a fresh numbered
LineIndenter, ends with a newline followed by exactly 7 spaces; hence in
`RootCauseLast`, whose entries are untrimmed, such an entry yields a line
of 7 spaces just before the entry-terminating newline. -/
theorem c9_trailing_newline_blank_indent (n : Nat) (t : Str) (h : trimS t ≠ []) :
    (∃ st pre, writeStr strSink (Indented.numbered n) [] (t ++ ['\n'])
        = some (st, pre ++ ('\n' :: List.replicate 7 ' ')))
    ∧ (∃ pre, fmtErrorLast strSink [t ++ ['\n']] none none []
        = some ('\n' :: ((pre ++ ('\n' :: List.replicate 7 ' ')) ++ ['\n']))) := by
  have hab : anyNonBlank (splitOnNl t) = true := anyNonBlank_splitOnNl.mpr h
  have hab2 : anyNonBlank (splitOnNl t ++ [[]]) = true := by
    simp only [anyNonBlank, List.any_eq_true] at hab ⊢
    obtain ⟨l, hl, hnb⟩ := hab
    exact ⟨l, List.mem_append_left _ hl, hnb⟩
  constructor
  · refine ⟨⟨some n, true⟩, emitFresh (some n) (splitOnNl t), ?_⟩
    have hemit : emitFresh (some n) (splitOnNl t ++ [[]])
        = emitFresh (some n) (splitOnNl t) ++ ('\n' :: List.replicate 7 ' ') := by
      rw [emitFresh_append_nonblank (some n) (splitOnNl t) [] hab]
      simp [contPfx]
    simp only [Indented.numbered]
    rw [writeStr_strSink, splitOnNl_append_nl, hemit, hab2]
    simp
  · refine ⟨emitFresh (some 0) (splitOnNl t), ?_⟩
    have hemit0 : emitFresh (some 0) (splitOnNl t ++ [[]])
        = emitFresh (some 0) (splitOnNl t) ++ ('\n' :: List.replicate 7 ' ') := by
      rw [emitFresh_append_nonblank (some 0) (splitOnNl t) [] hab]
      simp [contPfx]
    rw [fmtErrorLast_strSink]
    simp [enumLines, splitOnNl_append_nl, hemit0, ctxOut, btOut, List.append_assoc]

theorem c9_trailing_newline_blank_indent_witness :
    (trimS ("A".data) ≠ [])
    ∧ (∃ st pre, writeStr strSink (Indented.numbered 5) [] ("A".data ++ ['\n'])
        = some (st, pre ++ ('\n' :: List.replicate 7 ' ')))
    ∧ (∃ pre, fmtErrorLast strSink ["A".data ++ ['\n']] none none []
        = some ('\n' :: ((pre ++ ('\n' :: List.replicate 7 ' ')) ++ ['\n']))) :=
  ⟨by decide,
   (c9_trailing_newline_blank_indent 5 ("A".data) (by decide)).1,
   (c9_trailing_newline_blank_indent 5 ("A".data) (by decide)).2⟩

/-- C2: `RootCauseFirst` enumerates the reversed chain, so on
`[Outer, Middle, Root]` the entries are root cause first with labels 0, 1,
2; each entry is one newline followed by the entry's trimmed text through a
fresh numbered LineIndenter, and the last entry is not newline-terminated. -/
theorem c2_rootCauseFirst_order (o m r : Str) (s0 s1 s2 : Indented) (e0 e1 e2 : Str)
    (h0 : writeStr strSink (Indented.numbered 0) [] (trimS r) = some (s0, e0))
    (h1 : writeStr strSink (Indented.numbered 1) [] (trimS m) = some (s1, e1))
    (h2 : writeStr strSink (Indented.numbered 2) [] (trimS o) = some (s2, e2)) :
    fmtErrorFirst strSink [o, m, r] none none []
      = some (('\n' :: e0) ++ (('\n' :: e1) ++ ('\n' :: e2))) := by
  simp only [Indented.numbered] at h0 h1 h2
  rw [writeStr_strSink] at h0 h1 h2
  simp only [Option.some.injEq, Prod.mk.injEq, List.nil_append] at h0 h1 h2
  rw [fmtErrorFirst_strSink]
  simp [enumLines, ctxOut, btOut, h0.2, h1.2, h2.2, List.append_assoc]

theorem c2_rootCauseFirst_order_witness :
    fmtErrorFirst strSink ["outer".data, "middle".data, "root".data] none none []
      = some (('\n' :: "    0: root".data)
          ++ (('\n' :: "    1: middle".data) ++ ('\n' :: "    2: outer".data))) :=
  c2_rootCauseFirst_order ("outer".data) ("middle".data) ("root".data)
    ⟨some 0, true⟩ ⟨some 1, true⟩ ⟨some 2, true⟩
    ("    0: root".data) ("    1: middle".data) ("    2: outer".data)
    (by decide) (by decide) (by decide)

/-- C3: `RootCauseLast` enumerates the chain in natural order, so on
`[Outer, Middle, Root]` the entries carry labels 0, 1, 2 in that order;
one newline precedes the first entry, each entry's untrimmed text goes
through a fresh numbered LineIndenter, and every entry, including the
last, is followed by a newline. -/
theorem c3_rootCauseLast_order (o m r : Str) (s0 s1 s2 : Indented) (e0 e1 e2 : Str)
    (h0 : writeStr strSink (Indented.numbered 0) [] o = some (s0, e0))
    (h1 : writeStr strSink (Indented.numbered 1) [] m = some (s1, e1))
    (h2 : writeStr strSink (Indented.numbered 2) [] r = some (s2, e2)) :
    fmtErrorLast strSink [o, m, r] none none []
      = some ('\n' :: ((e0 ++ ['\n']) ++ ((e1 ++ ['\n']) ++ (e2 ++ ['\n'])))) := by
  simp only [Indented.numbered] at h0 h1 h2
  rw [writeStr_strSink] at h0 h1 h2
  simp only [Option.some.injEq, Prod.mk.injEq, List.nil_append] at h0 h1 h2
  rw [fmtErrorLast_strSink]
  simp [enumLines, ctxOut, btOut, h0.2, h1.2, h2.2, List.append_assoc]

theorem c3_rootCauseLast_order_witness :
    fmtErrorLast strSink ["outer".data, "middle".data, "root".data] none none []
      = some ('\n' :: (("    0: outer".data ++ ['\n'])
          ++ (("    1: middle".data ++ ['\n']) ++ ("    2: root".data ++ ['\n'])))) :=
  c3_rootCauseLast_order ("outer".data) ("middle".data) ("root".data)
    ⟨some 0, true⟩ ⟨some 1, true⟩ ⟨some 2, true⟩
    ("    0: outer".data) ("    1: middle".data) ("    2: root".data)
    (by decide) (by decide) (by decide)

theorem relabelBacktrace_ite (text : Str) :
    relabelBacktrace text
      = if List.isPrefixOf ("stack backtrace:".data) text
        then trimRightS ("Stack B".data ++ List.drop 7 text)
        else trimRightS text := by
  unfold relabelBacktrace
  split <;> rfl

/-- C6: a stack-trace section is rendered only with status `captured`, in
which case exactly `\n\n` is emitted and then the trace text with a leading
`stack backtrace:` rewritten to start `Stack B` and trailing whitespace
trimmed; any other status contributes zero bytes. -/
theorem c6_backtrace_block (chain : List Str) (span : Option Str) (base : Str)
    (h : fmtErrorFirst strSink chain span none [] = some base) :
    (∀ text : Str,
      fmtErrorFirst strSink chain span (some (BacktraceStatus.captured, text)) []
        = some (base ++ ('\n' :: '\n' ::
            (if List.isPrefixOf ("stack backtrace:".data) text
             then trimRightS ("Stack B".data ++ List.drop 7 text)
             else trimRightS text))))
    ∧ (∀ (st : BacktraceStatus) (text : Str), st ≠ BacktraceStatus.captured →
        fmtErrorFirst strSink chain span (some (st, text)) [] = some base) := by
  rw [fmtErrorFirst_strSink] at h
  simp only [Option.some.injEq] at h
  constructor
  · intro text
    rw [fmtErrorFirst_strSink, ← relabelBacktrace_ite]
    rw [← h]
    simp [btOut, List.append_assoc]
  · intro st text hst
    have hb : btOut (some (st, text)) = [] := by
      cases st with
      | captured => exact absurd rfl hst
      | disabled => rfl
      | unsupported => rfl
    rw [fmtErrorFirst_strSink, hb, ← h]
    simp [btOut]

theorem c6_backtrace_block_witness :
    (fmtErrorFirst strSink ["e".data] none none [] = some ("\n    0: e".data))
    ∧ (fmtErrorFirst strSink ["e".data] none
          (some (BacktraceStatus.captured, "stack backtrace:\n  f0  \n".data)) []
        = some ("\n    0: e".data ++ ('\n' :: '\n' ::
            (if List.isPrefixOf ("stack backtrace:".data) ("stack backtrace:\n  f0  \n".data)
             then trimRightS ("Stack B".data ++ List.drop 7 ("stack backtrace:\n  f0  \n".data))
             else trimRightS ("stack backtrace:\n  f0  \n".data)))))
    ∧ (fmtErrorFirst strSink ["e".data] none
          (some (BacktraceStatus.disabled, "stack backtrace:\n  f0  \n".data)) []
        = some ("\n    0: e".data)) :=
  ⟨by decide,
   (c6_backtrace_block ["e".data] none ("\n    0: e".data) (by decide)).1
     ("stack backtrace:\n  f0  \n".data),
   (c6_backtrace_block ["e".data] none ("\n    0: e".data) (by decide)).2
     BacktraceStatus.disabled ("stack backtrace:\n  f0  \n".data) (by decide)⟩

/-- C7: a present context section appends exactly `\n\nContext:\n` and the
context text verbatim after the chain entries; with both optional sections
absent the output is exactly the entry loop's output, with no extra bytes. -/
theorem c7_context_block (chain : List Str) (base : Str)
    (h : fmtErrorFirst strSink chain none none [] = some base) :
    (∀ ctx : Str, fmtErrorFirst strSink chain (some ctx) none []
        = some (base ++ ("\n\nContext:\n".data ++ ctx)))
    ∧ fmtErrorFirst strSink chain none none []
        = entriesLoopFirst strSink (enumLines 0 chain.reverse) [] := by
  rw [fmtErrorFirst_strSink] at h
  simp only [Option.some.injEq] at h
  constructor
  · intro ctx
    rw [fmtErrorFirst_strSink, ← h]
    simp [ctxOut, btOut, List.append_assoc]
  · rw [fmtErrorFirst_strSink, entriesLoopFirst_strSink]
    simp [ctxOut, btOut]

theorem c7_context_block_witness :
    (fmtErrorFirst strSink ["e".data] none none [] = some ("\n    0: e".data))
    ∧ (fmtErrorFirst strSink ["e".data] (some ("in main".data)) none []
        = some ("\n    0: e".data ++ ("\n\nContext:\n".data ++ "in main".data)))
    ∧ fmtErrorFirst strSink ["e".data] none none []
        = entriesLoopFirst strSink (enumLines 0 (["e".data] : List Str).reverse) [] :=
  ⟨by decide,
   (c7_context_block ["e".data] ("\n    0: e".data) (by decide)).1 ("in main".data),
   (c7_context_block ["e".data] ("\n    0: e".data) (by decide)).2⟩

/-- C10: in `RootCauseFirst`, a chain entry whose text is entirely
whitespace contributes only its preceding newline while still consuming
its index, so the surrounding entries keep labels 0 and 2 and no row is
labeled 1. -/
theorem c10_blank_middle_entry (o m r : Str) (s0 s2 : Indented) (e0 e2 : Str)
    (hm : trimS m = [])
    (h0 : writeStr strSink (Indented.numbered 0) [] (trimS r) = some (s0, e0))
    (h2 : writeStr strSink (Indented.numbered 2) [] (trimS o) = some (s2, e2)) :
    fmtErrorFirst strSink [o, m, r] none none []
      = some (('\n' :: e0) ++ (['\n'] ++ ('\n' :: e2))) := by
  simp only [Indented.numbered] at h0 h2
  rw [writeStr_strSink] at h0 h2
  simp only [Option.some.injEq, Prod.mk.injEq, List.nil_append] at h0 h2
  have hm1 : emitFresh (some 1) (splitOnNl (trimS m)) = [] := by rw [hm]; rfl
  rw [fmtErrorFirst_strSink]
  simp [enumLines, ctxOut, btOut, h0.2, h2.2, hm1, List.append_assoc]

theorem c10_blank_middle_entry_witness :
    (trimS ("  \n ".data) = [])
    ∧ fmtErrorFirst strSink ["outer".data, "  \n ".data, "root".data] none none []
        = some (('\n' :: "    0: root".data) ++ (['\n'] ++ ('\n' :: "    2: outer".data))) :=
  ⟨by decide,
   c10_blank_middle_entry ("outer".data) ("  \n ".data) ("root".data)
     ⟨some 0, true⟩ ⟨some 2, true⟩ ("    0: root".data) ("    2: outer".data)
     (by decide) (by decide) (by decide)⟩

theorem writeStr_strSink_started (ind : Option Nat) (out s : Str) :
    ∃ r, writeStr strSink ⟨ind, true⟩ out s = some r := by
  obtain ⟨l0, rest, hs⟩ := splitOnNl_exists_cons s
  rw [writeStr, hs]
  have h := writeStrAux_started ind rest 0 (out ++ l0)
  refine ⟨(⟨ind, true⟩, (out ++ l0) ++ emitFrom ind rest), ?_⟩
  simp only [enumLines, writeStrAux, strSink_write, Option.bind]
  simpa using h

theorem mem_enumLines_of_mem {α : Type} (ls : List α) :
    ∀ (n : Nat) (x : α), x ∈ ls → ∃ p ∈ enumLines n ls, p.2 = x := by
  induction ls with
  | nil => intro n x h; exact absurd h (List.not_mem_nil x)
  | cons l ls ih =>
    intro n x h
    rcases List.mem_cons.mp h with h | h
    · subst h; exact ⟨(n, x), List.mem_cons_self _ _, rfl⟩
    · obtain ⟨p, hp, hpx⟩ := ih (n + 1) x h
      exact ⟨p, List.mem_cons_of_mem _ hp, hpx⟩

theorem writeStrAux_fail {σ : Type} (w : Sink σ) (hw : ∀ (o : σ) (t : Str), w.write o t = none)
    (ind : Option Nat) :
    ∀ (pairs : List (Nat × Str)), (∃ p ∈ pairs, trimS p.2 ≠ []) →
    ∀ out, writeStrAux w ⟨ind, false⟩ out pairs = none := by
  intro pairs
  induction pairs with
  | nil => intro h _; simp at h
  | cons p ps ih =>
    intro h out
    obtain ⟨i, line⟩ := p
    by_cases hb : trimS line = []
    · simp only [writeStrAux, hb, if_pos rfl, if_true]
      apply ih
      obtain ⟨q, hq, hnb⟩ := h
      rcases List.mem_cons.mp hq with h1 | h1
      · subst h1; exact absurd hb hnb
      · exact ⟨q, h1, hnb⟩
    · simp [writeStrAux, hb, hw, Option.bind]

theorem writeStr_fail {σ : Type} (w : Sink σ) (hw : ∀ (o : σ) (t : Str), w.write o t = none)
    (ind : Option Nat) (out : σ) (s : Str) (h : trimS s ≠ []) :
    writeStr w ⟨ind, false⟩ out s = none := by
  apply writeStrAux_fail w hw
  have hab : anyNonBlank (splitOnNl s) = true := anyNonBlank_splitOnNl.mpr h
  simp only [anyNonBlank, List.any_eq_true, decide_eq_true_eq] at hab
  obtain ⟨l, hl, hnb⟩ := hab
  obtain ⟨p, hp, hpl⟩ := mem_enumLines_of_mem (splitOnNl s) 0 l hl
  exact ⟨p, hp, hpl ▸ hnb⟩

theorem enumLines_cons_ne_nil {α : Type} (n : Nat) (x : α) (ls : List α) :
    enumLines n (x :: ls) ≠ [] := by
  simp [enumLines]

theorem entriesLoopFirst_fail {σ : Type} (w : Sink σ)
    (hw : ∀ (o : σ) (t : Str), w.write o t = none)
    (pairs : List (Nat × Str)) (hne : pairs ≠ []) (out : σ) :
    entriesLoopFirst w pairs out = none := by
  cases pairs with
  | nil => exact absurd rfl hne
  | cons p ps =>
    obtain ⟨n, e⟩ := p
    simp [entriesLoopFirst, hw, Option.bind]

/-- C8: a failed underlying write makes the LineIndenter write and the
whole render return the failure; with a sink whose writes all succeed,
every message and every chain renders successfully, so a sink write
failure is the only error condition. -/
theorem c8_failure_propagation :
    (∀ (σ : Type) (w : Sink σ), (∀ (o : σ) (t : Str), w.write o t = none) →
      (∀ (ind : Option Nat) (out : σ) (s : Str), trimS s ≠ [] →
        writeStr w ⟨ind, false⟩ out s = none)
      ∧ (∀ (e : Str) (chain : List Str) (span : Option Str)
            (bt : Option (BacktraceStatus × Str)) (out : σ),
          fmtErrorFirst w (e :: chain) span bt out = none)
      ∧ (∀ (e : Str) (chain : List Str) (span : Option Str)
            (bt : Option (BacktraceStatus × Str)) (out : σ),
          fmtErrorLast w (e :: chain) span bt out = none))
    ∧ (∀ (st : Indented) (out s : Str), ∃ r, writeStr strSink st out s = some r)
    ∧ (∀ (chain : List Str) (span : Option Str) (bt : Option (BacktraceStatus × Str))
          (out : Str), ∃ o, fmtErrorFirst strSink chain span bt out = some o)
    ∧ (∀ (chain : List Str) (span : Option Str) (bt : Option (BacktraceStatus × Str))
          (out : Str), ∃ o, fmtErrorLast strSink chain span bt out = some o) := by
  refine ⟨?_, ?_, ?_, ?_⟩
  · intro σ w hw
    refine ⟨fun ind out s h => writeStr_fail w hw ind out s h, ?_, ?_⟩
    · intro e chain span bt out
      have hne : enumLines 0 ((e :: chain).reverse) ≠ [] := by
        cases hrev : (e :: chain).reverse with
        | nil => exact absurd hrev (by simp)
        | cons x xs => exact hrev ▸ enumLines_cons_ne_nil 0 x xs
      have hloop := entriesLoopFirst_fail w hw (enumLines 0 ((e :: chain).reverse)) hne out
      simp only [fmtErrorFirst]
      rw [hloop]
      rfl
    · intro e chain span bt out
      simp [fmtErrorLast, hw, Option.bind]
  · intro st out s
    obtain ⟨ind, started⟩ := st
    cases started with
    | false => exact ⟨_, writeStr_strSink ind out s⟩
    | true => exact writeStr_strSink_started ind out s
  · intro chain span bt out
    exact ⟨_, fmtErrorFirst_strSink chain span bt out⟩
  · intro chain span bt out
    exact ⟨_, fmtErrorLast_strSink chain span bt out⟩

theorem c8_failure_propagation_witness :
    (writeStr (Sink.mk fun (_ : Unit) (_ : Str) => none) ⟨some 0, false⟩ () ("A".data) = none)
    ∧ (fmtErrorFirst (Sink.mk fun (_ : Unit) (_ : Str) => none) ["A".data] none none () = none)
    ∧ (fmtErrorLast (Sink.mk fun (_ : Unit) (_ : Str) => none) ["A".data] none none () = none)
    ∧ (∃ r, writeStr strSink ⟨some 0, false⟩ [] ("A".data) = some r)
    ∧ (∃ o, fmtErrorFirst strSink ["A".data] none none [] = some o) :=
  ⟨(c8_failure_propagation.1 Unit (Sink.mk fun _ _ => none) (fun _ _ => rfl)).1
      (some 0) () ("A".data) (by decide),
   (c8_failure_propagation.1 Unit (Sink.mk fun _ _ => none) (fun _ _ => rfl)).2.1
      ("A".data) [] none none (),
   (c8_failure_propagation.1 Unit (Sink.mk fun _ _ => none) (fun _ _ => rfl)).2.2
      ("A".data) [] none none (),
   c8_failure_propagation.2.1 ⟨some 0, false⟩ [] ("A".data),
   c8_failure_propagation.2.2.1 ["A".data] none none []⟩
